import Mathlib

set_option maxRecDepth 8000

/-!
Shallow embedding of the email-scraper engine: `scrapper.py` (validator,
extractors, per-site crawl) and `app.py` (worker sizing, per-URL worker).
Regex behaviour is modelled at the character level with Python `re`
semantics (leftmost non-overlapping scan, greedy fixed classes).
-/

/-! ### Character classes used by the regexes in `scrapper.py` -/

def sqChar : Char := Char.ofNat 39

def dqChar : Char := Char.ofNat 34

def isQuoteChar (c : Char) : Bool := c = sqChar || c = dqChar

/-- The class `[a-zA-Z0-9._%+-]` (local part of an email). -/
def isLocalChar (c : Char) : Bool :=
  c.isAlphanum || c = '.' || c = '_' || c = '%' || c = '+' || c = '-'

/-- The class `[a-zA-Z0-9.-]` (domain of an email). -/
def isDomChar (c : Char) : Bool := c.isAlphanum || c = '.' || c = '-'

/-- Python `\s` over ASCII. -/
def isPySpace (c : Char) : Bool :=
  c = ' ' || c = Char.ofNat 9 || c = Char.ofNat 10 || c = Char.ofNat 13 ||
  c = Char.ofNat 11 || c = Char.ofNat 12

/-! ### Substring machinery (Python `in` on strings) -/

def listStartsWith : List Char → List Char → Bool
  | [], _ => true
  | _ :: _, [] => false
  | p :: ps, c :: cs => p = c && listStartsWith ps cs

/-- `containsSub pat s` models Python `pat in s`. -/
def containsSub (pat : List Char) : List Char → Bool
  | [] => listStartsWith pat []
  | s@(_ :: t) => listStartsWith pat s || containsSub pat t

/-! ### `validate_email` (scrapper.py lines 72-94) -/

/-- Full-anchored match of `[a-zA-Z0-9.-]+\.[A-Za-z]{2,}`: the domain run
splits at its last dot into a nonempty class prefix and a 2+-letter tld. -/
def domainTailFull (d : List Char) : Bool :=
  let revd := d.reverse
  let tldRev := revd.takeWhile (fun c => c ≠ '.')
  match revd.drop tldRev.length with
  | c :: pre =>
    c = '.' && decide (2 ≤ tldRev.length) && tldRev.all Char.isAlpha &&
    !pre.isEmpty && pre.all isDomChar
  | [] => false

/-- `re.match(r'^[a-zA-Z0-9._%+-]+@[a-zA-Z0-9.-]+\.[A-Za-z]{2,}$', email)`:
`$` also matches just before one trailing newline (Python semantics). -/
def reFullMatchEmail (email : List Char) : Bool :=
  let s := if email.getLast? = some (Char.ofNat 10) then email.dropLast else email
  let loc := s.takeWhile (fun c => c ≠ '@')
  match s.drop loc.length with
  | _ :: d => !loc.isEmpty && loc.all isLocalChar && domainTailFull d
  | [] => false

/-- Does the list start with `\d{3}-\d{3}-\d{4}`? -/
def phoneAt : List Char → Bool
  | a :: b :: c :: d :: e :: f :: g :: h :: i :: j :: k :: l :: _ =>
    a.isDigit && b.isDigit && c.isDigit && d = '-' &&
    e.isDigit && f.isDigit && g.isDigit && h = '-' &&
    i.isDigit && j.isDigit && k.isDigit && l.isDigit
  | _ => false

/-- `re.search(r'\d{3}-\d{3}-\d{4}', s)` as a Bool. -/
def hasPhone : List Char → Bool
  | [] => false
  | s@(_ :: t) => phoneAt s || hasPhone t

def commonFalsePositives : List (List Char) :=
  ["example.com".toList, "domain.com".toList, "email.com".toList,
   "your-email.com".toList, "username@".toList, "@domain".toList,
   "example@example".toList]

/-- Python `email.split('@')[0]`: everything before the first `@`. -/
def localPartOf (e : List Char) : List Char := e.takeWhile (fun c => c ≠ '@')

/-- `validate_email` from scrapper.py: reject empty / missing `@`, then the
denylist of placeholder fragments (checked on the lowercased string), then a
phone-shaped local part, then require the full anchored email pattern. -/
def validate_email (email : List Char) : Bool :=
  if email.isEmpty || !email.contains '@' then false
  else if commonFalsePositives.any (fun fp => containsSub fp (email.map Char.toLower)) then
    false
  else if hasPhone (localPartOf email) then false
  else reFullMatchEmail email

example : validate_email "john123-456-7890@site.com".toList = false := by decide
example : validate_email "a@example.com".toList = false := by decide
example : validate_email "a@b.co".toList = true := by decide
example : validate_email "Jane@acme.org".toList = true := by decide
example : validate_email "a@b.c".toList = false := by decide
example : validate_email "x@a.co".toList = true := by decide

/-! ### `get_optimal_workers` (app.py lines 24-32); `cpu` is
`multiprocessing.cpu_count()`, `file_size` the number of rows. -/

def get_optimal_workers (cpu file_size : Nat) : Nat :=
  if file_size ≤ 100 then min cpu (min 4 file_size)
  else if file_size ≤ 300 then min cpu (min 8 file_size)
  else min (cpu * 2) (min 16 file_size)

example : get_optimal_workers 8 50 = 4 := by decide
example : get_optimal_workers 8 150 = 8 := by decide
example : get_optimal_workers 8 500 = 16 := by decide

/-! ### `worker` (app.py lines 34-43): one crawl job at the dispatcher
boundary.  A job either completes with an email list or raises; `worker`
catches every exception and returns the empty list. -/

inductive JobOutcome where
  | ok : List String → JobOutcome
  | err : String → JobOutcome

def worker : JobOutcome → List String
  | JobOutcome.ok es => es
  | JobOutcome.err _ => []

/-! ### The concatenation-obfuscation regex (scrapper.py line 43)

`[\'"][a-zA-Z0-9._%+-]+[\'"]\s*\+\s*[\'"]\@[\'"]\s*\+\s*[\'"][a-zA-Z0-9.-]+\.[A-Za-z]{2,}[\'"]`

Each component is deterministic: every character class excludes the quote
characters, so greedy runs never backtrack past a quote, and `\s*\+\s*`
commits to the whitespace run before the mandatory `+`.  The matchers below
return the number of characters consumed. -/

/-- Consume one quote character. -/
def eatQuote : List Char → Option (Nat × List Char)
  | c :: r => if isQuoteChar c then some (1, r) else none
  | [] => none

/-- Consume one fixed character. -/
def eatLit (x : Char) : List Char → Option (Nat × List Char)
  | c :: r => if c = x then some (1, r) else none
  | [] => none

/-- Consume `\s*\+\s*`. -/
def eatPlusSep (s : List Char) : Option (Nat × List Char) :=
  let w1 := s.takeWhile isPySpace
  match s.drop w1.length with
  | '+' :: r2 =>
    let w2 := r2.takeWhile isPySpace
    some (w1.length + 1 + w2.length, r2.drop w2.length)
  | _ => none

/-- Consume `[a-zA-Z0-9._%+-]+`. -/
def eatLocalRun (s : List Char) : Option (Nat × List Char) :=
  let run := s.takeWhile isLocalChar
  if run.isEmpty then none else some (run.length, s.drop run.length)

/-- Consume `[a-zA-Z0-9.-]+\.[A-Za-z]{2,}[\'"]`: the maximal domain-class run
followed immediately by a quote, where the run decomposes at its last dot. -/
def eatDomainQuoted (s : List Char) : Option (Nat × List Char) :=
  let run := s.takeWhile isDomChar
  if run.isEmpty then none
  else if domainTailFull run then
    match s.drop run.length with
    | c :: r => if isQuoteChar c then some (run.length + 1, r) else none
    | [] => none
  else none

/-- Everything of the concat pattern after its first quote. -/
def matchConcatTail (s1 : List Char) : Option Nat :=
  match eatLocalRun s1 with
  | none => none
  | some (a2, s2) =>
    match eatQuote s2 with
    | none => none
    | some (a3, s3) =>
      match eatPlusSep s3 with
      | none => none
      | some (a4, s4) =>
        match eatQuote s4 with
        | none => none
        | some (a5, s5) =>
          match eatLit '@' s5 with
          | none => none
          | some (a6, s6) =>
            match eatQuote s6 with
            | none => none
            | some (a7, s7) =>
              match eatPlusSep s7 with
              | none => none
              | some (a8, s8) =>
                match eatQuote s8 with
                | none => none
                | some (a9, s9) =>
                  match eatDomainQuoted s9 with
                  | none => none
                  | some (a10, _) =>
                    some (a2 + a3 + a4 + a5 + a6 + a7 + a8 + a9 + a10)

/-- Attempt the whole concat pattern at the head of `s`; returns the length
of the match. -/
def matchConcatAt : List Char → Option Nat
  | [] => none
  | c :: s1 => if isQuoteChar c then (matchConcatTail s1).map (fun k => k + 1) else none

/-- `re.findall(concat_pattern, text)`: leftmost non-overlapping scan.  The
fuel argument (instantiated with the text length, enough because every match
consumes at least one character) keeps the recursion structural. -/
def findConcatMatchesF : Nat → List Char → List (List Char)
  | 0, _ => []
  | _ + 1, [] => []
  | fuel + 1, s@(_ :: t) =>
    match matchConcatAt s with
    | some n => s.take n :: findConcatMatchesF fuel (s.drop n)
    | none => findConcatMatchesF fuel t

/-! ### The fragment regex `[\'"]([^\'"]*)[\'"]\s*\+\s*` (scrapper.py line 46),
applied to `match + "+"`; `re.findall` returns the captured group. -/

/-- Attempt the fragment pattern at the head of `s`; returns the capture and
the length consumed. -/
def matchPartAt : List Char → Option (List Char × Nat)
  | [] => none
  | c :: r =>
    if isQuoteChar c then
      let cap := r.takeWhile (fun x => !isQuoteChar x)
      match r.drop cap.length with
      | c2 :: r2 =>
        if isQuoteChar c2 then
          match eatPlusSep r2 with
          | some (k, _) => some (cap, 1 + cap.length + 1 + k)
          | none => none
        else none
      | [] => none
    else none

def findPartsF : Nat → List Char → List (List Char)
  | 0, _ => []
  | _ + 1, [] => []
  | fuel + 1, s@(_ :: t) =>
    match matchPartAt s with
    | some (cap, n) => cap :: findPartsF fuel (s.drop n)
    | none => findPartsF fuel t

/-! ### The plain email regex `[a-zA-Z0-9._%+-]+@[a-zA-Z0-9.-]+\.[A-Za-z]{2,}`
(scrapper.py lines 23 and 63), unanchored `re.findall`. -/

def alphaRun (l : List Char) : Nat := (l.takeWhile Char.isAlpha).length

/-- The largest index `i ≥ 1` of a dot in the domain run that is followed by
at least two letters (greedy backtracking picks the latest viable dot). -/
def lastValidDot (dom : List Char) : Option Nat :=
  (List.range dom.length).reverse.find? (fun i =>
    decide (1 ≤ i) && decide (dom.getD i ' ' = '.') &&
    decide (2 ≤ alphaRun (dom.drop (i + 1))))

/-- Attempt the email pattern at the head of `s`; returns the match length:
local run, `@`, domain-class run up to the latest viable dot, then the
maximal letter run after that dot. -/
def matchEmailAt (s : List Char) : Option Nat :=
  let loc := s.takeWhile isLocalChar
  if loc.isEmpty then none
  else
    match s.drop loc.length with
    | c :: r2 =>
      if c = '@' then
        let dom := r2.takeWhile isDomChar
        match lastValidDot dom with
        | some i => some (loc.length + 1 + i + 1 + alphaRun (dom.drop (i + 1)))
        | none => none
      else none
    | [] => none

def emailFindallF : Nat → List Char → List (List Char)
  | 0, _ => []
  | _ + 1, [] => []
  | fuel + 1, s@(_ :: t) =>
    match matchEmailAt s with
    | some n => s.take n :: emailFindallF fuel (s.drop n)
    | none => emailFindallF fuel t

/-! ### `extract_emails_from_text` and `extract_obfuscated_emails`
(scrapper.py lines 36-70).  Python sets are modelled as duplicate-free lists
built by `insertSet`. -/

def insertSet (e : List Char) (acc : List (List Char)) : List (List Char) :=
  if e ∈ acc then acc else acc ++ [e]

def unionSet (a b : List (List Char)) : List (List Char) :=
  b.foldl (fun acc e => insertSet e acc) a

/-- Python `str.strip()` (whitespace both ends). -/
def stripWs (s : List Char) : List Char :=
  ((s.dropWhile isPySpace).reverse.dropWhile isPySpace).reverse

def digitsVal (ds : List Char) : Nat :=
  ds.foldl (fun n c => n * 10 + (c.toNat - 48)) 0

/-- `re.sub(r'&#(\d+);', lambda m: chr(int(m.group(1))), text)`: decode
numeric HTML character entities, scanning left to right. -/
def entityDecodeF : Nat → List Char → List Char
  | 0, s => s
  | _ + 1, [] => []
  | fuel + 1, c :: rest =>
    if c = '&' then
      match rest with
      | '#' :: r2 =>
        let ds := r2.takeWhile Char.isDigit
        if ds.isEmpty then '&' :: entityDecodeF fuel rest
        else
          match r2.drop ds.length with
          | ';' :: r4 => Char.ofNat (digitsVal ds) :: entityDecodeF fuel r4
          | _ => '&' :: entityDecodeF fuel rest
      | _ => '&' :: entityDecodeF fuel rest
    else c :: entityDecodeF fuel rest

/-- `extract_emails_from_text` (scrapper.py lines 56-70): regex findall,
lowercase + strip each match, validate, collect into a set. -/
def extract_emails_from_text (text : List Char) : List (List Char) :=
  if text.isEmpty then []
  else
    (emailFindallF text.length text).foldl
      (fun acc m =>
        let e := stripWs (m.map Char.toLower)
        if validate_email e then insertSet e acc else acc)
      []

/-- One concat match of `extract_obfuscated_emails` (scrapper.py lines
45-49): split the match into its quoted fragments over `match + "+"`, join
them, and add the reconstruction verbatim when it holds an `@` and
validates (no lowercasing happens here). -/
def concatStep (acc : List (List Char)) (m : List Char) : List (List Char) :=
  let parts := findPartsF (m ++ ['+']).length (m ++ ['+'])
  let recon := parts.flatten
  if recon.contains '@' && validate_email recon then insertSet recon acc else acc

/-- `extract_obfuscated_emails` (scrapper.py lines 36-54): the concatenation
branch reconstructs each match from its quoted fragments and adds it
verbatim (no lowercasing); the entity branch decodes `&#NN;` and re-runs the
plain text scan; both are unioned. -/
def extract_obfuscated_emails (text : List Char) : List (List Char) :=
  let concatSet := (findConcatMatchesF text.length text).foldl concatStep []
  unionSet concatSet (extract_emails_from_text (entityDecodeF text.length text))

example :
    extract_obfuscated_emails "\"jane\" + \"@\" + \"acme.org\"".toList =
      ["jane@acme.org".toList] := by decide

example :
    extract_obfuscated_emails "\"Jane\" + \"@\" + \"acme.org\"".toList =
      ["Jane@acme.org".toList] := by decide

example :
    extract_obfuscated_emails
        "\"x\" + \"@\" + \"a.co\"jane\" + \"@\" + \"acme.org\"".toList =
      ["x@a.co".toList] := by decide

example :
    containsSub "\"jane\" + \"@\" + \"acme.org\"".toList
        "\"x\" + \"@\" + \"a.co\"jane\" + \"@\" + \"acme.org\"".toList = true := by
  decide

/-! ### The retry loop of `process_url` (scrapper.py lines 135-150) when every
attempt raises `requests.RequestException`.

`for attempt in range(max_retries)` with `time.sleep(2 * (attempt + 1))`
whenever `attempt < max_retries - 1`; afterwards the function returns the
still-empty `(emails, subpages)`.  `retryAllFailGo mr rem i` runs the
remaining `rem` iterations starting at index `i`, returning the number of
attempts performed and the sleep durations in order. -/

def retryAllFailGo (mr : Nat) : Nat → Nat → Nat × List Nat
  | 0, _ => (0, [])
  | rem + 1, i =>
    let (n, sl) := retryAllFailGo mr rem (i + 1)
    (n + 1, (if i < mr - 1 then [2 * (i + 1)] else []) ++ sl)

/-- `process_url` on a URL whose every fetch attempt fails at the network
level: (attempts made, sleeps between attempts, returned (emails, subpages)). -/
def process_url_allfail (mr : Nat) : (Nat × List Nat) × (List String × List String) :=
  (retryAllFailGo mr mr 0, ([], []))

example : process_url_allfail 3 = ((3, [2, 4]), ([], [])) := by decide
example : process_url_allfail 2 = ((2, [2]), ([], [])) := by decide

/-! ### The per-site crawl (`process_url` gating and `find_emails`,
scrapper.py lines 122-197).

The network is abstracted as a `Site` oracle: whether fetching a URL
succeeds (after its internal retries), and the emails / candidate subpage
links its rendered page yields.  Everything else — the visited set, the
frontier, the budget counter — is translated directly from the source. -/

structure Site where
  fetchOk : String → Bool
  pageEmails : String → List String
  pageLinks : String → List String

/-- `process_url` (scrapper.py lines 122-150) at the visit level: the
visited-set gate, then marking visited, then the fetch (success yields the
page's emails and links, failure after all retries yields nothing).  The
final Bool records whether a fetch was attempted. -/
def process_url_m (site : Site) (url : String) (visited : List String) :
    List String × List String × List String × Bool :=
  if url ∈ visited then ([], [], visited, false)
  else if site.fetchOk url then (site.pageEmails url, site.pageLinks url, url :: visited, true)
  else ([], [], url :: visited, true)

structure LoopState where
  visited : List String
  emails : List String
  fetched : List String
  pagesVisited : Nat

/-- The `while subpages_to_visit and pages_visited < max_subpages` loop of
`find_emails` (scrapper.py lines 181-192): pop FIFO, skip if visited
(consuming no budget), otherwise process the URL — its discovered links are
discarded — and increment `pages_visited` whether or not the fetch
succeeded. -/
def crawlLoop (site : Site) (maxSub : Nat) : List String → LoopState → LoopState
  | [], st => st
  | url :: rest, st =>
    if st.pagesVisited < maxSub then
      if url ∈ st.visited then crawlLoop site maxSub rest st
      else
        let (es, _subs, v', f) := process_url_m site url st.visited
        crawlLoop site maxSub rest
          { visited := v'
            emails := st.emails ++ es
            fetched := st.fetched ++ (if f then [url] else [])
            pagesVisited := st.pagesVisited + 1 }
    else st

/-- Seed normalization in `find_emails` (scrapper.py lines 161-162). -/
def normalizeSeed (s : String) : String :=
  if listStartsWith "http://".toList s.toList || listStartsWith "https://".toList s.toList
  then s else "https://" ++ s

/-- `find_emails` (scrapper.py lines 152-197): normalize the seed, process
it (seeding the frontier with its discovered links), then drain the frontier
under the subpage budget, starting `pages_visited` at 1. -/
def find_emails_m (site : Site) (base_url : String) (maxSub : Nat) : LoopState :=
  let s0 := normalizeSeed base_url
  let (e0, subs0, v0, f0) := process_url_m site s0 []
  crawlLoop site maxSub subs0
    { visited := v0
      emails := e0
      fetched := if f0 then [s0] else []
      pagesVisited := 1 }

/-! Concrete sites used by the counterexamples and witnesses. -/

/-- A site whose seed page yields 10 distinct candidate subpages and where
every fetch succeeds. -/
def site10 : Site where
  fetchOk := fun _ => true
  pageEmails := fun _ => []
  pageLinks := fun u =>
    if u = "https://s.com" then
      ["https://s.com/u1", "https://s.com/u2", "https://s.com/u3", "https://s.com/u4",
       "https://s.com/u5", "https://s.com/u6", "https://s.com/u7", "https://s.com/u8",
       "https://s.com/u9", "https://s.com/u10"]
    else []

/-- A site whose seed page reports the same discovered URL twice. -/
def siteDup : Site where
  fetchOk := fun _ => true
  pageEmails := fun _ => []
  pageLinks := fun u =>
    if u = "https://d.com" then ["https://d.com/c", "https://d.com/c"] else []

/-- A site with 10 candidate subpages where the first two subpage fetches
fail after all retries. -/
def siteFail : Site where
  fetchOk := fun u => !(u = "https://f.com/v1" || u = "https://f.com/v2")
  pageEmails := fun _ => []
  pageLinks := fun u =>
    if u = "https://f.com" then
      ["https://f.com/v1", "https://f.com/v2", "https://f.com/v3", "https://f.com/v4",
       "https://f.com/v5", "https://f.com/v6", "https://f.com/v7", "https://f.com/v8",
       "https://f.com/v9", "https://f.com/v10"]
    else []

example : (find_emails_m site10 "https://s.com" 3).pagesVisited = 3 := by decide
example : (find_emails_m site10 "https://s.com" 3).fetched =
    ["https://s.com", "https://s.com/u1", "https://s.com/u2"] := by decide
example : (find_emails_m siteDup "https://d.com" 5).fetched =
    ["https://d.com", "https://d.com/c"] := by decide
example : (find_emails_m siteFail "https://f.com" 5).pagesVisited = 5 := by decide
example : ((find_emails_m siteFail "https://f.com" 5).fetched.filter siteFail.fetchOk).length
    = 3 := by decide

/-! ## Claim theorems -/

/-- C2 (code bug evidence): on the script text `"Jane" + "@" + "acme.org"`
the crawl's script-concatenation extraction path returns the reconstructed
email verbatim — `Jane@acme.org`, which is not lowercase — contradicting the
claimed (and documented) lowercase normalization of every returned email. -/
theorem claim2_failing_eval :
    extract_obfuscated_emails "\"Jane\" + \"@\" + \"acme.org\"".toList =
      ["Jane@acme.org".toList] ∧
    ("Jane@acme.org".toList.map Char.toLower ≠ "Jane@acme.org".toList) :=
  ⟨by decide, by decide⟩

/-- C4: the per-job worker never raises: it is a total function of the job
outcome; a job that errors is downgraded to the empty email list, and in
every case the result is either the job's own email list or the empty
list — so the worst observable outcome for one input row is an empty
collection. -/
theorem claim4_worker_isolation :
    (∀ m : String, worker (JobOutcome.err m) = []) ∧
    (∀ es : List String, worker (JobOutcome.ok es) = es) ∧
    (∀ o : JobOutcome, worker o = [] ∨ ∃ es, o = JobOutcome.ok es ∧ worker o = es) := by
  refine ⟨fun _ => rfl, fun _ => rfl, fun o => ?_⟩
  cases o with
  | ok es => exact Or.inr ⟨es, rfl, rfl⟩
  | err m => exact Or.inl rfl

/-- C5: the validator rejects the phone-shaped local part, the denylisted
placeholder domain, and accepts `a@b.co`; in general it rejects any string
with no `@`, any string containing a denylisted fragment (checked on the
lowercased string, as the code does), any string whose local part contains a
`ddd-ddd-dddd` substring, and any string not matching the full anchored
`local@domain.tld` pattern. -/
theorem claim5_validator :
    validate_email "john123-456-7890@site.com".toList = false ∧
    validate_email "a@example.com".toList = false ∧
    validate_email "a@b.co".toList = true ∧
    (∀ e : List Char, e.contains '@' = false → validate_email e = false) ∧
    (∀ e : List Char,
      (∃ fp ∈ commonFalsePositives, containsSub fp (e.map Char.toLower) = true) →
      validate_email e = false) ∧
    (∀ e : List Char, hasPhone (localPartOf e) = true → validate_email e = false) ∧
    (∀ e : List Char, reFullMatchEmail e = false → validate_email e = false) := by
  refine ⟨by decide, by decide, by decide, ?_, ?_, ?_, ?_⟩
  · intro e h
    have h' : '@' ∉ e := by simpa using h
    simp [validate_email, h']
  · intro e h
    have hB : commonFalsePositives.any (fun fp => containsSub fp (e.map Char.toLower)) = true := by
      obtain ⟨fp, hfp, hc⟩ := h
      exact List.any_eq_true.mpr ⟨fp, hfp, hc⟩
    simp [validate_email, hB]
  · intro e h
    simp [validate_email, h]
  · intro e h
    simp [validate_email, h]

/-- C5 witness: the generic rejection clauses applied at concrete inputs. -/
theorem claim5_witness : validate_email "no-at-sign".toList = false :=
  claim5_validator.2.2.2.1 "no-at-sign".toList (by decide)

/-- C7: worker sizing follows the three batch-size bands of
`get_optimal_workers`, and gives 4 / 8 / 16 workers for batches of 50 / 150 /
500 rows with 8 CPUs. -/
theorem claim7_workers :
    (∀ c n : Nat, n ≤ 100 → get_optimal_workers c n = min c (min 4 n)) ∧
    (∀ c n : Nat, 100 < n → n ≤ 300 → get_optimal_workers c n = min c (min 8 n)) ∧
    (∀ c n : Nat, 300 < n → get_optimal_workers c n = min (2 * c) (min 16 n)) ∧
    get_optimal_workers 8 50 = 4 ∧ get_optimal_workers 8 150 = 8 ∧
    get_optimal_workers 8 500 = 16 := by
  refine ⟨?_, ?_, ?_, by decide, by decide, by decide⟩
  · intro c n h
    simp [get_optimal_workers, h]
  · intro c n h1 h2
    simp [get_optimal_workers, h2, Nat.not_le.mpr h1]
  · intro c n h
    have h1 : ¬ n ≤ 100 := by omega
    have h2 : ¬ n ≤ 300 := by omega
    simp [get_optimal_workers, h1, h2, Nat.mul_comm]

/-- C7 witness: the band formulas applied at the concrete inputs. -/
theorem claim7_witness :
    get_optimal_workers 8 50 = min 8 (min 4 50) ∧
    get_optimal_workers 8 150 = min 8 (min 8 150) ∧
    get_optimal_workers 8 500 = min (2 * 8) (min 16 500) :=
  ⟨claim7_workers.1 8 50 (by decide), claim7_workers.2.1 8 150 (by decide) (by decide),
   claim7_workers.2.2.1 8 500 (by decide)⟩

/-- C1 counterexample: with `max_subpages = 3`, a seed page yielding 10
candidate subpages and no failing fetch (`site10.fetchOk` is constantly
true), the crawl visits 2 non-seed pages, not 3: `pages_visited` starts at 1
for the seed and the loop guard is `pages_visited < max_subpages`. -/
theorem claim1_counterexample :
    (site10.pageLinks (normalizeSeed "https://s.com")).length = 10 ∧
    (find_emails_m site10 "https://s.com" 3).pagesVisited - 1 = 2 ∧
    ((find_emails_m site10 "https://s.com" 3).pagesVisited - 1 ≠ 3) :=
  ⟨by decide, by decide, by decide⟩

/-- C3 counterexample: with `max_retries = 3` and every fetch failing, the
retry loop `for attempt in range(max_retries)` performs 3 attempts in total,
not `1 + max_retries = 4`. -/
theorem claim3_counterexample :
    (process_url_allfail 3).1.1 = 3 ∧ (process_url_allfail 3).1.1 ≠ 3 + 1 :=
  ⟨by decide, by decide⟩

theorem retryAllFailGo_fst (mr : Nat) : ∀ rem i, (retryAllFailGo mr rem i).1 = rem := by
  intro rem
  induction rem with
  | zero => intro i; rfl
  | succ r ih => intro i; simp [retryAllFailGo, ih]

theorem retryAllFailGo_snd (mr : Nat) : ∀ rem i, (retryAllFailGo mr rem i).2 =
    (List.range rem).filterMap
      (fun k => if i + k < mr - 1 then some (2 * (i + k + 1)) else none) := by
  intro rem
  induction rem with
  | zero => intro i; rfl
  | succ r ih =>
    intro i
    rw [List.range_succ_eq_map, List.filterMap_cons, List.filterMap_map]
    have hcomp :
        ((fun k => if i + k < mr - 1 then some (2 * (i + k + 1)) else none) ∘ Nat.succ) =
          (fun k => if (i + 1) + k < mr - 1 then some (2 * ((i + 1) + k + 1)) else none) := by
      funext k
      simp only [Function.comp]
      have hk : i + Nat.succ k = (i + 1) + k := by omega
      rw [hk]
    rw [hcomp, ← ih (i + 1)]
    show (if i < mr - 1 then [2 * (i + 1)] else []) ++ (retryAllFailGo mr r (i + 1)).2 = _
    by_cases hc : i < mr - 1
    · simp [hc]
    · simp [hc]

theorem filterMap_range_cut (m : Nat) :
    (List.range m).filterMap (fun k => if k < m - 1 then some (2 * (k + 1)) else none) =
      (List.range (m - 1)).map (fun k => 2 * (k + 1)) := by
  have key : ∀ (b : Nat) (l : List Nat), (∀ k ∈ l, k < b) →
      l.filterMap (fun k => if k < b then some (2 * (k + 1)) else none) =
        l.map (fun k => 2 * (k + 1)) := by
    intro b l
    induction l with
    | nil => intro _; rfl
    | cons a t ih =>
      intro hmem
      have ha : a < b := hmem a (List.mem_cons_self a t)
      simp [List.filterMap_cons, ha, ih (fun k hk => hmem k (List.mem_cons_of_mem a hk))]
  cases m with
  | zero => rfl
  | succ m' =>
    rw [List.range_succ, List.filterMap_append]
    have h1 : (List.range m').filterMap
        (fun k => if k < m' + 1 - 1 then some (2 * (k + 1)) else none) =
        (List.range m').map (fun k => 2 * (k + 1)) := by
      have : ∀ k ∈ List.range m', k < m' + 1 - 1 := by
        intro k hk
        simpa using List.mem_range.mp hk
      exact key (m' + 1 - 1) (List.range m') this
    rw [h1]
    simp

/-- C3 amended: when every attempt fails at the network level, the fetch
routine performs exactly `max_retries` attempts in total (retrying
`max_retries - 1` times after the first attempt), sleeping `2 * k` seconds
after the k-th failed attempt for `k = 1 .. max_retries - 1`, then gives up
and returns empty results (no emails, no subpages) without raising. -/
theorem claim3_amended : ∀ mr : Nat,
    (process_url_allfail mr).1.1 = mr ∧
    (process_url_allfail mr).1.2 = (List.range (mr - 1)).map (fun k => 2 * (k + 1)) ∧
    (process_url_allfail mr).2 = ([], []) := by
  intro mr
  refine ⟨retryAllFailGo_fst mr mr 0, ?_, rfl⟩
  have h := retryAllFailGo_snd mr mr 0
  simp only [process_url_allfail, h, Nat.zero_add]
  exact filterMap_range_cut mr

/-! ### Crawl-loop step equations and invariants -/

theorem process_url_m_new (site : Site) (u : String) (visited : List String)
    (h : u ∉ visited) :
    process_url_m site u visited =
      (if site.fetchOk u then site.pageEmails u else [],
       if site.fetchOk u then site.pageLinks u else [],
       u :: visited, true) := by
  unfold process_url_m
  rw [if_neg h]
  by_cases hf : site.fetchOk u <;> simp [hf]

theorem crawlLoop_nil (site : Site) (maxSub : Nat) (st : LoopState) :
    crawlLoop site maxSub [] st = st := rfl

theorem crawlLoop_cons_stop (site : Site) (maxSub : Nat) (url : String)
    (rest : List String) (st : LoopState) (hb : ¬ st.pagesVisited < maxSub) :
    crawlLoop site maxSub (url :: rest) st = st := by
  simp only [crawlLoop, if_neg hb]

theorem crawlLoop_cons_skip (site : Site) (maxSub : Nat) (url : String)
    (rest : List String) (st : LoopState) (hb : st.pagesVisited < maxSub)
    (hv : url ∈ st.visited) :
    crawlLoop site maxSub (url :: rest) st = crawlLoop site maxSub rest st := by
  simp only [crawlLoop, if_pos hb, if_pos hv]

theorem crawlLoop_cons_process (site : Site) (maxSub : Nat) (url : String)
    (rest : List String) (st : LoopState) (hb : st.pagesVisited < maxSub)
    (hv : url ∉ st.visited) :
    crawlLoop site maxSub (url :: rest) st =
      crawlLoop site maxSub rest
        { visited := url :: st.visited
          emails := st.emails ++ (if site.fetchOk url then site.pageEmails url else [])
          fetched := st.fetched ++ [url]
          pagesVisited := st.pagesVisited + 1 } := by
  simp only [crawlLoop, if_pos hb, if_neg hv, process_url_m_new site url st.visited hv]
  simp

/-- Budget upper bound: the loop never pushes `pages_visited` beyond
`max(start, max_subpages)`. -/
theorem crawlLoop_pages_le (site : Site) (maxSub : Nat) :
    ∀ (frontier : List String) (st : LoopState),
      (crawlLoop site maxSub frontier st).pagesVisited ≤ max st.pagesVisited maxSub := by
  intro frontier
  induction frontier with
  | nil => intro st; simp [crawlLoop_nil]
  | cons url rest ih =>
    intro st
    by_cases hb : st.pagesVisited < maxSub
    · by_cases hv : url ∈ st.visited
      · rw [crawlLoop_cons_skip site maxSub url rest st hb hv]
        exact ih st
      · rw [crawlLoop_cons_process site maxSub url rest st hb hv]
        have h := ih { visited := url :: st.visited
                       emails := st.emails ++ (if site.fetchOk url then site.pageEmails url else [])
                       fetched := st.fetched ++ [url]
                       pagesVisited := st.pagesVisited + 1 }
        simp only at h
        omega
    · rw [crawlLoop_cons_stop site maxSub url rest st hb]
      omega

/-- Budget exactness: with a duplicate-free frontier of unvisited URLs long
enough to cover the remaining budget, the loop drives `pages_visited` to
exactly `max_subpages`. -/
theorem crawlLoop_pages_exact (site : Site) (maxSub : Nat) :
    ∀ (frontier : List String) (st : LoopState),
      frontier.Nodup → (∀ u ∈ frontier, u ∉ st.visited) →
      maxSub ≤ st.pagesVisited + frontier.length → st.pagesVisited ≤ maxSub →
      (crawlLoop site maxSub frontier st).pagesVisited = maxSub := by
  intro frontier
  induction frontier with
  | nil =>
    intro st _ _ h1 h2
    simp only [crawlLoop_nil]
    simp only [List.length_nil] at h1
    omega
  | cons url rest ih =>
    intro st hnd hnv h1 h2
    by_cases hb : st.pagesVisited < maxSub
    · have hv : url ∉ st.visited := hnv url (List.mem_cons_self url rest)
      rw [crawlLoop_cons_process site maxSub url rest st hb hv]
      apply ih
      · exact (List.nodup_cons.mp hnd).2
      · intro v hvr
        simp only [List.mem_cons]
        push_neg
        refine ⟨?_, hnv v (List.mem_cons_of_mem url hvr)⟩
        intro hveq
        exact (List.nodup_cons.mp hnd).1 (hveq ▸ hvr)
      · simp only [List.length_cons] at h1
        simp only
        omega
      · simp only
        omega
    · rw [crawlLoop_cons_stop site maxSub url rest st hb]
      omega

/-- Every fetched URL was recorded in the visited set, and no URL is fetched
twice. -/
theorem crawlLoop_fetched_nodup (site : Site) (maxSub : Nat) :
    ∀ (frontier : List String) (st : LoopState),
      st.fetched.Nodup → (∀ u ∈ st.fetched, u ∈ st.visited) →
      (crawlLoop site maxSub frontier st).fetched.Nodup ∧
        (∀ u ∈ (crawlLoop site maxSub frontier st).fetched,
          u ∈ (crawlLoop site maxSub frontier st).visited) := by
  intro frontier
  induction frontier with
  | nil => intro st h1 h2; exact ⟨h1, h2⟩
  | cons url rest ih =>
    intro st h1 h2
    by_cases hb : st.pagesVisited < maxSub
    · by_cases hv : url ∈ st.visited
      · rw [crawlLoop_cons_skip site maxSub url rest st hb hv]
        exact ih st h1 h2
      · rw [crawlLoop_cons_process site maxSub url rest st hb hv]
        apply ih
        · simp only [List.nodup_append, List.nodup_cons]
          refine ⟨h1, by simp, ?_⟩
          intro a ha hb'
          simp only [List.mem_singleton] at hb'
          exact hv (hb' ▸ h2 a ha)
        · intro u hu
          simp only [List.mem_append, List.mem_singleton] at hu
          simp only [List.mem_cons]
          rcases hu with hu | hu
          · exact Or.inr (h2 u hu)
          · exact Or.inl hu
    · rw [crawlLoop_cons_stop site maxSub url rest st hb]
      exact ⟨h1, h2⟩

/-- Every fetched URL either was already fetched or came from the frontier:
links discovered on subpages are never enqueued. -/
theorem crawlLoop_fetched_from (site : Site) (maxSub : Nat) :
    ∀ (frontier : List String) (st : LoopState),
      ∀ u ∈ (crawlLoop site maxSub frontier st).fetched,
        u ∈ st.fetched ∨ u ∈ frontier := by
  intro frontier
  induction frontier with
  | nil => intro st u hu; exact Or.inl hu
  | cons url rest ih =>
    intro st u hu
    by_cases hb : st.pagesVisited < maxSub
    · by_cases hv : url ∈ st.visited
      · rw [crawlLoop_cons_skip site maxSub url rest st hb hv] at hu
        rcases ih st u hu with h | h
        · exact Or.inl h
        · exact Or.inr (List.mem_cons_of_mem url h)
      · rw [crawlLoop_cons_process site maxSub url rest st hb hv] at hu
        rcases ih _ u hu with h | h
        · simp only [List.mem_append, List.mem_singleton] at h
          rcases h with h | h
          · exact Or.inl h
          · exact Or.inr (h ▸ List.mem_cons_self url rest)
        · exact Or.inr (List.mem_cons_of_mem url h)
    · rw [crawlLoop_cons_stop site maxSub url rest st hb] at hu
      exact Or.inl hu

/-- One budget unit per fetch attempt: the length of the fetch log tracks
`pages_visited` exactly, whether or not the fetches succeed. -/
theorem crawlLoop_fetched_length (site : Site) (maxSub : Nat) :
    ∀ (frontier : List String) (st : LoopState),
      st.fetched.length = st.pagesVisited →
      (crawlLoop site maxSub frontier st).fetched.length =
        (crawlLoop site maxSub frontier st).pagesVisited := by
  intro frontier
  induction frontier with
  | nil => intro st h; exact h
  | cons url rest ih =>
    intro st h
    by_cases hb : st.pagesVisited < maxSub
    · by_cases hv : url ∈ st.visited
      · rw [crawlLoop_cons_skip site maxSub url rest st hb hv]
        exact ih st h
      · rw [crawlLoop_cons_process site maxSub url rest st hb hv]
        apply ih
        simp only [List.length_append, List.length_singleton]
        omega
    · rw [crawlLoop_cons_stop site maxSub url rest st hb]
      exact h

/-- The initial state of `find_emails`: the seed is processed against an
empty visited set, so it is always fetched. -/
theorem find_emails_m_eq (site : Site) (base : String) (maxSub : Nat) :
    find_emails_m site base maxSub =
      crawlLoop site maxSub
        (if site.fetchOk (normalizeSeed base) then site.pageLinks (normalizeSeed base) else [])
        { visited := [normalizeSeed base]
          emails := if site.fetchOk (normalizeSeed base)
                    then site.pageEmails (normalizeSeed base) else []
          fetched := [normalizeSeed base]
          pagesVisited := 1 } := by
  simp only [find_emails_m, process_url_m_new site (normalizeSeed base) [] (List.not_mem_nil _)]
  simp

/-- C1 amended: the loop guard `pages_visited < max_subpages` together with
`pages_visited` starting at 1 for the seed means a crawl with
`max_subpages = 3` and 10 distinct discovered candidate subpages (all
fetches succeeding) visits exactly `max_subpages - 1 = 2` non-seed pages,
and in general never more than `max_subpages - 1`. -/
theorem claim1_amended :
    (∀ (site : Site) (base : String),
       (site.pageLinks (normalizeSeed base)).Nodup →
       normalizeSeed base ∉ site.pageLinks (normalizeSeed base) →
       10 ≤ (site.pageLinks (normalizeSeed base)).length →
       site.fetchOk (normalizeSeed base) = true →
       (find_emails_m site base 3).pagesVisited - 1 = 2) ∧
    (∀ (site : Site) (base : String) (m : Nat),
       (find_emails_m site base m).pagesVisited - 1 ≤ m - 1) := by
  constructor
  · intro site base hnd hns hlen hfk
    rw [find_emails_m_eq]
    simp only [hfk, if_true]
    have hx := crawlLoop_pages_exact site 3 (site.pageLinks (normalizeSeed base))
      { visited := [normalizeSeed base]
        emails := site.pageEmails (normalizeSeed base)
        fetched := [normalizeSeed base]
        pagesVisited := 1 }
      hnd
      (by
        intro u hu
        simp only [List.mem_singleton]
        intro he
        exact hns (he ▸ hu))
      (by simp only; omega)
      (by simp only; omega)
    omega
  · intro site base m
    rw [find_emails_m_eq]
    have h := crawlLoop_pages_le site m
      (if site.fetchOk (normalizeSeed base) = true
       then site.pageLinks (normalizeSeed base) else [])
      { visited := [normalizeSeed base]
        emails := if site.fetchOk (normalizeSeed base) = true
                  then site.pageEmails (normalizeSeed base) else []
        fetched := [normalizeSeed base]
        pagesVisited := 1 }
    simp only at h
    rcases Nat.lt_or_ge m 1 with hm | hm
    case inr =>
      rw [Nat.max_eq_right hm] at h
      omega
    case inl =>
      have hm0 : m = 0 := by omega
      subst hm0
      rw [Nat.max_eq_left (by omega)] at h
      omega

/-- C1 witness: the amended bounds applied to the concrete ten-link site. -/
theorem claim1_witness :
    (find_emails_m site10 "https://s.com" 3).pagesVisited - 1 = 2 ∧
    (find_emails_m site10 "https://s.com" 4).pagesVisited - 1 ≤ 4 - 1 :=
  ⟨claim1_amended.1 site10 "https://s.com" (by decide) (by decide) (by decide) (by decide),
   claim1_amended.2 site10 "https://s.com" 4⟩

/-- C8: within one crawl job no URL is ever fetched twice (the visited-set
gate precedes every fetch), and on the concrete site whose seed reports the
same candidate URL twice, that URL appears twice in the frontier but is
fetched exactly once. -/
theorem claim8_fetch_once :
    (∀ (site : Site) (base : String) (m : Nat) (u : String),
       (find_emails_m site base m).fetched.count u ≤ 1) ∧
    (siteDup.pageLinks "https://d.com").count "https://d.com/c" = 2 ∧
    (find_emails_m siteDup "https://d.com" 5).fetched.count "https://d.com/c" = 1 := by
  refine ⟨?_, by decide, by decide⟩
  intro site base m u
  rw [find_emails_m_eq]
  exact List.nodup_iff_count_le_one.mp
    (crawlLoop_fetched_nodup site m _ _ (by simp) (by simp)).1 u

/-- C9: only the seed page's discovered links ever enter the frontier, so
every URL fetched during a job is the (normalized) seed itself or one of the
links discovered on the seed page — at most one hop from the seed. -/
theorem claim9_one_hop :
    ∀ (site : Site) (base : String) (m : Nat) (u : String),
      u ∈ (find_emails_m site base m).fetched →
      u = normalizeSeed base ∨ u ∈ site.pageLinks (normalizeSeed base) := by
  intro site base m u hu
  rw [find_emails_m_eq] at hu
  rcases crawlLoop_fetched_from site m _ _ u hu with h | h
  · left
    simpa using h
  · right
    by_cases hf : site.fetchOk (normalizeSeed base) = true
    · rwa [if_pos hf] at h
    · rw [if_neg hf] at h
      exact absurd h (List.not_mem_nil u)

/-- C9 witness: the one-hop property applied to a fetched subpage of the
concrete ten-link site. -/
theorem claim9_witness :
    "https://s.com/u1" = normalizeSeed "https://s.com" ∨
      "https://s.com/u1" ∈ site10.pageLinks (normalizeSeed "https://s.com") :=
  claim9_one_hop site10 "https://s.com" 3 "https://s.com/u1" (by decide)

/-- C10: each popped-and-processed frontier URL consumes exactly one budget
unit whether its fetch succeeds or fails (the fetch log length always equals
`pages_visited`, and skipped pops touch neither), so with failures a job may
successfully fetch fewer pages than its budget allows: on `siteFail` the
budget of 4 non-seed visits is fully consumed while only 3 fetches
(seed plus 2 subpages) succeed. -/
theorem claim10_budget_accounting :
    (∀ (site : Site) (base : String) (m : Nat),
       (find_emails_m site base m).fetched.length = (find_emails_m site base m).pagesVisited) ∧
    (find_emails_m siteFail "https://f.com" 5).pagesVisited - 1 = 4 ∧
    ((find_emails_m siteFail "https://f.com" 5).fetched.filter siteFail.fetchOk).length = 3 ∧
    (siteFail.pageLinks "https://f.com").length = 10 := by
  refine ⟨?_, by decide, by decide, by decide⟩
  intro site base m
  rw [find_emails_m_eq]
  exact crawlLoop_fetched_length site m _ _ (by simp)

/-- C6 counterexample: a script text that does contain the substring
`"jane" + "@" + "acme.org"`, yet the extractor does not return
`jane@acme.org`: the leftmost non-overlapping scan first matches
`"x" + "@" + "a.co"`, whose closing quote is the opening quote of the
`"jane"` literal, so the jane occurrence is consumed and never matched. -/
theorem claim6_counterexample :
    containsSub "\"jane\" + \"@\" + \"acme.org\"".toList
        "\"x\" + \"@\" + \"a.co\"jane\" + \"@\" + \"acme.org\"".toList = true ∧
    "jane@acme.org".toList ∉ extract_obfuscated_emails
        "\"x\" + \"@\" + \"a.co\"jane\" + \"@\" + \"acme.org\"".toList :=
  ⟨by decide, by decide⟩

/-! ### Machinery for the amended C6: any quote/whitespace variant of the
`"jane" + "@" + "acme.org"` pattern is extracted whenever no quote character
precedes it in the script text. -/

theorem quoteChar_cases {c : Char} (h : isQuoteChar c = true) : c = sqChar ∨ c = dqChar := by
  simpa [isQuoteChar] using h

theorem quoteChar_not_local {c : Char} (h : isQuoteChar c = true) : isLocalChar c = false := by
  rcases quoteChar_cases h with rfl | rfl <;> decide

theorem quoteChar_not_dom {c : Char} (h : isQuoteChar c = true) : isDomChar c = false := by
  rcases quoteChar_cases h with rfl | rfl <;> decide

theorem quoteChar_not_space {c : Char} (h : isQuoteChar c = true) : isPySpace c = false := by
  rcases quoteChar_cases h with rfl | rfl <;> decide

theorem takeWhile_app (p : Char → Bool) :
    ∀ (l : List Char) (x : Char) (r : List Char),
      (∀ c ∈ l, p c = true) → p x = false →
      (l ++ x :: r).takeWhile p = l := by
  intro l
  induction l with
  | nil =>
    intro x r _ hx
    simp [List.takeWhile_cons, hx]
  | cons a t ih =>
    intro x r hl hx
    have ha : p a = true := hl a (List.mem_cons_self a t)
    simp [List.takeWhile_cons, ha,
      ih x r (fun c hc => hl c (List.mem_cons_of_mem a hc)) hx]

theorem drop_concat_eq (A rest : List Char) (n : Nat) (h : n = A.length) :
    (A ++ rest).drop n = rest := by
  rw [h]
  exact List.drop_left A rest

theorem eatLocalRun_app (l : List Char) (x : Char) (r : List Char)
    (hl : ∀ c ∈ l, isLocalChar c = true) (hx : isLocalChar x = false)
    (hne : l.isEmpty = false) :
    eatLocalRun (l ++ x :: r) = some (l.length, x :: r) := by
  simp only [eatLocalRun, takeWhile_app isLocalChar l x r hl hx, List.drop_left, hne]
  simp

theorem eatQuote_cons (c : Char) (r : List Char) (h : isQuoteChar c = true) :
    eatQuote (c :: r) = some (1, r) := by
  simp [eatQuote, h]

theorem eatLit_cons (c : Char) (r : List Char) : eatLit c (c :: r) = some (1, r) := by
  simp [eatLit]

theorem eatPlusSep_app (w1 w2 : List Char) (x : Char) (r : List Char)
    (h1 : ∀ c ∈ w1, isPySpace c = true) (h2 : ∀ c ∈ w2, isPySpace c = true)
    (hx : isPySpace x = false) :
    eatPlusSep (w1 ++ '+' :: (w2 ++ x :: r)) = some (w1.length + 1 + w2.length, x :: r) := by
  simp only [eatPlusSep, takeWhile_app isPySpace w1 '+' (w2 ++ x :: r) h1 (by decide),
    List.drop_left]
  simp only [takeWhile_app isPySpace w2 x r h2 hx, List.drop_left]

theorem eatDomainQuoted_app (d : List Char) (x : Char) (r : List Char)
    (hd : ∀ c ∈ d, isDomChar c = true) (hne : d.isEmpty = false)
    (hdt : domainTailFull d = true) (hx : isDomChar x = false)
    (hq : isQuoteChar x = true) :
    eatDomainQuoted (d ++ x :: r) = some (d.length + 1, r) := by
  simp only [eatDomainQuoted, takeWhile_app isDomChar d x r hd hx, List.drop_left,
    hne, hdt, hq]
  simp

/-- The pattern variant `[q1]jane[q1] w1 + w2 [q2]@[q2] w3 + w4 [q3]acme.org[q3]`. -/
def concatVariant (q1 q2 q3 : Char) (w1 w2 w3 w4 : List Char) : List Char :=
  [q1] ++ "jane".toList ++ [q1] ++ w1 ++ ['+'] ++ w2 ++ [q2, '@', q2] ++ w3 ++ ['+'] ++
    w4 ++ [q3] ++ "acme.org".toList ++ [q3]

/-- The same variant, minus its leading quote, in right-nested form, with a
continuation `suf` appended. -/
def concatVariantTail (q1 q2 q3 : Char) (w1 w2 w3 w4 suf : List Char) : List Char :=
  "jane".toList ++ q1 :: (w1 ++ '+' :: (w2 ++ q2 :: '@' :: q2 ::
    (w3 ++ '+' :: (w4 ++ q3 :: ("acme.org".toList ++ q3 :: suf)))))

theorem concatVariant_append (q1 q2 q3 : Char) (w1 w2 w3 w4 suf : List Char) :
    concatVariant q1 q2 q3 w1 w2 w3 w4 ++ suf =
      q1 :: concatVariantTail q1 q2 q3 w1 w2 w3 w4 suf := by
  simp [concatVariant, concatVariantTail]

theorem concatVariant_length (q1 q2 q3 : Char) (w1 w2 w3 w4 : List Char) :
    (concatVariant q1 q2 q3 w1 w2 w3 w4).length =
      21 + (w1.length + w2.length + w3.length + w4.length) := by
  have hj : ("jane".toList).length = 4 := by decide
  have ha : ("acme.org".toList).length = 8 := by decide
  unfold concatVariant
  simp only [List.length_append, List.length_cons, List.length_nil,
    List.length_singleton, hj, ha]
  omega

theorem matchConcatTail_variant (q1 q2 q3 : Char) (w1 w2 w3 w4 suf : List Char)
    (hq1 : isQuoteChar q1 = true) (hq2 : isQuoteChar q2 = true)
    (hq3 : isQuoteChar q3 = true)
    (hw1 : ∀ c ∈ w1, isPySpace c = true) (hw2 : ∀ c ∈ w2, isPySpace c = true)
    (hw3 : ∀ c ∈ w3, isPySpace c = true) (hw4 : ∀ c ∈ w4, isPySpace c = true) :
    matchConcatTail (concatVariantTail q1 q2 q3 w1 w2 w3 w4 suf) =
      some (20 + (w1.length + w2.length + w3.length + w4.length)) := by
  simp only [concatVariantTail]
  set R5 : List Char := "acme.org".toList ++ q3 :: suf with hR5
  set U : List Char := w3 ++ '+' :: (w4 ++ q3 :: R5) with hU
  set T : List Char := '@' :: q2 :: U with hT
  set S : List Char := w1 ++ '+' :: (w2 ++ q2 :: T) with hS
  have e1 : eatLocalRun ("jane".toList ++ q1 :: S) = some (("jane".toList).length, q1 :: S) :=
    eatLocalRun_app _ _ _ (by decide) (quoteChar_not_local hq1) (by decide)
  have e2 : eatQuote (q1 :: S) = some (1, S) := eatQuote_cons _ _ hq1
  have e3 : eatPlusSep S = some (w1.length + 1 + w2.length, q2 :: T) := by
    rw [hS]
    exact eatPlusSep_app w1 w2 q2 T hw1 hw2 (quoteChar_not_space hq2)
  have e4 : eatQuote (q2 :: T) = some (1, T) := eatQuote_cons _ _ hq2
  have e5 : eatLit '@' T = some (1, q2 :: U) := by
    rw [hT]
    exact eatLit_cons '@' (q2 :: U)
  have e6 : eatQuote (q2 :: U) = some (1, U) := eatQuote_cons _ _ hq2
  have e7 : eatPlusSep U = some (w3.length + 1 + w4.length, q3 :: R5) := by
    rw [hU]
    exact eatPlusSep_app w3 w4 q3 R5 hw3 hw4 (quoteChar_not_space hq3)
  have e8 : eatQuote (q3 :: R5) = some (1, R5) := eatQuote_cons _ _ hq3
  have e9 : eatDomainQuoted R5 = some (("acme.org".toList).length + 1, suf) := by
    rw [hR5]
    exact eatDomainQuoted_app _ _ _ (by decide) (by decide) (by decide)
      (quoteChar_not_dom hq3) hq3
  simp only [matchConcatTail, e1, e2, e3, e4, e5, e6, e7, e8, e9]
  have hj : ("jane".toList).length = 4 := by decide
  have ha : ("acme.org".toList).length = 8 := by decide
  simp only [hj, ha, Option.some.injEq]
  omega

theorem matchConcatAt_variant (q1 q2 q3 : Char) (w1 w2 w3 w4 suf : List Char)
    (hq1 : isQuoteChar q1 = true) (hq2 : isQuoteChar q2 = true)
    (hq3 : isQuoteChar q3 = true)
    (hw1 : ∀ c ∈ w1, isPySpace c = true) (hw2 : ∀ c ∈ w2, isPySpace c = true)
    (hw3 : ∀ c ∈ w3, isPySpace c = true) (hw4 : ∀ c ∈ w4, isPySpace c = true) :
    matchConcatAt (concatVariant q1 q2 q3 w1 w2 w3 w4 ++ suf) =
      some ((concatVariant q1 q2 q3 w1 w2 w3 w4).length) := by
  rw [concatVariant_append]
  simp only [matchConcatAt, hq1, if_true,
    matchConcatTail_variant q1 q2 q3 w1 w2 w3 w4 suf hq1 hq2 hq3 hw1 hw2 hw3 hw4,
    Option.map_some', concatVariant_length, Option.some.injEq]
  omega

theorem findConcatMatchesF_step (s : List Char) (n fuel : Nat)
    (h : matchConcatAt s = some n) (hf : 1 ≤ fuel) :
    findConcatMatchesF fuel s = s.take n :: findConcatMatchesF (fuel - 1) (s.drop n) := by
  cases s with
  | nil => simp [matchConcatAt] at h
  | cons c t =>
    cases fuel with
    | zero => omega
    | succ f => simp [findConcatMatchesF, h]

theorem findConcatMatchesF_skip (c : Char) (t : List Char) (fuel : Nat)
    (h : isQuoteChar c = false) (hf : 1 ≤ fuel) :
    findConcatMatchesF fuel (c :: t) = findConcatMatchesF (fuel - 1) t := by
  have hm : matchConcatAt (c :: t) = none := by simp [matchConcatAt, h]
  cases fuel with
  | zero => omega
  | succ f => simp [findConcatMatchesF, hm]

theorem findConcatMatchesF_pre (rest : List Char) :
    ∀ (pre : List Char) (fuel : Nat), (∀ c ∈ pre, isQuoteChar c = false) →
      pre.length ≤ fuel →
      findConcatMatchesF fuel (pre ++ rest) = findConcatMatchesF (fuel - pre.length) rest := by
  intro pre
  induction pre with
  | nil => intro fuel _ _; simp
  | cons c t ih =>
    intro fuel hq hf
    simp only [List.length_cons] at hf
    simp only [List.cons_append]
    rw [findConcatMatchesF_skip c (t ++ rest) fuel (hq c (List.mem_cons_self c t)) (by omega)]
    rw [ih (fuel - 1) (fun d hd => hq d (List.mem_cons_of_mem c hd)) (by omega)]
    congr 1
    simp only [List.length_cons]
    omega

theorem findPartsF_step (s : List Char) (cap : List Char) (n fuel : Nat)
    (h : matchPartAt s = some (cap, n)) (hf : 1 ≤ fuel) :
    findPartsF fuel s = cap :: findPartsF (fuel - 1) (s.drop n) := by
  cases s with
  | nil => simp [matchPartAt] at h
  | cons c t =>
    cases fuel with
    | zero => omega
    | succ f => simp [findPartsF, h]

theorem findPartsF_nil (fuel : Nat) : findPartsF fuel [] = [] := by
  cases fuel <;> rfl

/-- The fragment pattern at a well-formed quoted fragment followed by a
separator: capture the fragment, consume through the separator. -/
theorem matchPartAt_eq (q q' : Char) (cap rest tail : List Char) (k : Nat)
    (hq : isQuoteChar q = true) (hq' : isQuoteChar q' = true)
    (hcap : ∀ c ∈ cap, isQuoteChar c = false)
    (hsep : eatPlusSep rest = some (k, tail)) :
    matchPartAt (q :: (cap ++ q' :: rest)) = some (cap, 1 + cap.length + 1 + k) := by
  have hcap' : ∀ c ∈ cap, (!isQuoteChar c) = true := by
    intro c hc
    rw [hcap c hc]
    rfl
  have hq'' : (!isQuoteChar q') = false := by rw [hq']; rfl
  simp only [matchPartAt, hq, if_true,
    takeWhile_app (fun x => !isQuoteChar x) cap q' rest hcap' hq'', List.drop_left,
    hq', hsep]

theorem findParts_variant (q1 q2 q3 : Char) (w1 w2 w3 w4 : List Char)
    (hq1 : isQuoteChar q1 = true) (hq2 : isQuoteChar q2 = true)
    (hq3 : isQuoteChar q3 = true)
    (hw1 : ∀ c ∈ w1, isPySpace c = true) (hw2 : ∀ c ∈ w2, isPySpace c = true)
    (hw3 : ∀ c ∈ w3, isPySpace c = true) (hw4 : ∀ c ∈ w4, isPySpace c = true) :
    findPartsF ((concatVariant q1 q2 q3 w1 w2 w3 w4 ++ ['+']).length)
        (concatVariant q1 q2 q3 w1 w2 w3 w4 ++ ['+']) =
      ["jane".toList, ['@'], "acme.org".toList] := by
  have hj : ("jane".toList).length = 4 := by decide
  have ha : ("acme.org".toList).length = 8 := by decide
  rw [concatVariant_append]
  simp only [concatVariantTail]
  set R5 : List Char := "acme.org".toList ++ q3 :: ['+'] with hR5
  set U : List Char := w3 ++ '+' :: (w4 ++ q3 :: R5) with hU
  set T : List Char := '@' :: q2 :: U with hT
  set S : List Char := w1 ++ '+' :: (w2 ++ q2 :: T) with hS
  have hsepS : eatPlusSep S = some (w1.length + 1 + w2.length, q2 :: T) := by
    rw [hS]
    exact eatPlusSep_app w1 w2 q2 T hw1 hw2 (quoteChar_not_space hq2)
  have hsepU : eatPlusSep U = some (w3.length + 1 + w4.length, q3 :: R5) := by
    rw [hU]
    exact eatPlusSep_app w3 w4 q3 R5 hw3 hw4 (quoteChar_not_space hq3)
  have hsepP : eatPlusSep ['+'] = some (1, ([] : List Char)) := by decide
  have m1 : matchPartAt (q1 :: ("jane".toList ++ q1 :: S)) =
      some ("jane".toList,
        1 + ("jane".toList).length + 1 + (w1.length + 1 + w2.length)) :=
    matchPartAt_eq q1 q1 "jane".toList S (q2 :: T) (w1.length + 1 + w2.length)
      hq1 hq1 (by decide) hsepS
  have m2 : matchPartAt (q2 :: T) =
      some (['@'], 1 + 1 + 1 + (w3.length + 1 + w4.length)) := by
    rw [hT]
    have h := matchPartAt_eq q2 q2 ['@'] U (q3 :: R5) (w3.length + 1 + w4.length)
      hq2 hq2 (by decide) hsepU
    simpa using h
  have m3 : matchPartAt (q3 :: R5) =
      some ("acme.org".toList, 1 + ("acme.org".toList).length + 1 + 1) := by
    rw [hR5]
    exact matchPartAt_eq q3 q3 "acme.org".toList ['+'] [] 1 hq3 hq3 (by decide) hsepP
  have d1 : (q1 :: ("jane".toList ++ q1 :: S)).drop
      (1 + ("jane".toList).length + 1 + (w1.length + 1 + w2.length)) = q2 :: T := by
    rw [hS]
    rw [show (q1 :: ("jane".toList ++ q1 :: (w1 ++ '+' :: (w2 ++ q2 :: T)))) =
        (q1 :: ("jane".toList ++ q1 :: (w1 ++ '+' :: w2))) ++ (q2 :: T) from by simp]
    apply drop_concat_eq
    simp only [List.length_cons, List.length_append, hj]
    omega
  have d2 : (q2 :: T).drop (1 + 1 + 1 + (w3.length + 1 + w4.length)) = q3 :: R5 := by
    rw [hT, hU]
    rw [show (q2 :: ('@' :: q2 :: (w3 ++ '+' :: (w4 ++ q3 :: R5)))) =
        (q2 :: '@' :: q2 :: (w3 ++ '+' :: w4)) ++ (q3 :: R5) from by simp]
    apply drop_concat_eq
    simp only [List.length_cons, List.length_append]
    omega
  have d3 : (q3 :: R5).drop (1 + ("acme.org".toList).length + 1 + 1) = [] := by
    rw [hR5]
    apply List.drop_eq_nil_of_le
    simp only [List.length_cons, List.length_append, List.length_nil, hj, ha]
    omega
  have hflen : (q1 :: ("jane".toList ++ q1 :: S)).length =
      6 + S.length := by
    simp only [List.length_cons, List.length_append, hj]
    omega
  have hSlen : 3 ≤ S.length := by
    rw [hS, hT]
    simp only [List.length_cons, List.length_append]
    omega
  have hf1 : 1 ≤ (q1 :: ("jane".toList ++ q1 :: S)).length := by omega
  have hf2 : 1 ≤ (q1 :: ("jane".toList ++ q1 :: S)).length - 1 := by omega
  have hf3 : 1 ≤ (q1 :: ("jane".toList ++ q1 :: S)).length - 1 - 1 := by omega
  rw [findPartsF_step _ _ _ _ m1 hf1, d1]
  rw [findPartsF_step _ _ _ _ m2 hf2, d2]
  rw [findPartsF_step _ _ _ _ m3 hf3, d3]
  rw [findPartsF_nil]

theorem concatStep_variant (q1 q2 q3 : Char) (w1 w2 w3 w4 : List Char)
    (acc : List (List Char))
    (hq1 : isQuoteChar q1 = true) (hq2 : isQuoteChar q2 = true)
    (hq3 : isQuoteChar q3 = true)
    (hw1 : ∀ c ∈ w1, isPySpace c = true) (hw2 : ∀ c ∈ w2, isPySpace c = true)
    (hw3 : ∀ c ∈ w3, isPySpace c = true) (hw4 : ∀ c ∈ w4, isPySpace c = true) :
    concatStep acc (concatVariant q1 q2 q3 w1 w2 w3 w4) =
      insertSet "jane@acme.org".toList acc := by
  simp only [concatStep,
    findParts_variant q1 q2 q3 w1 w2 w3 w4 hq1 hq2 hq3 hw1 hw2 hw3 hw4]
  have hflat : (["jane".toList, ['@'], "acme.org".toList] : List (List Char)).flatten =
      "jane@acme.org".toList := by decide
  rw [hflat]
  have hcond : (("jane@acme.org".toList).contains '@' &&
      validate_email "jane@acme.org".toList) = true := by decide
  rw [hcond]
  simp

theorem mem_insertSet_self (e : List Char) (acc : List (List Char)) :
    e ∈ insertSet e acc := by
  unfold insertSet
  split
  · assumption
  · simp

theorem mem_insertSet_of_mem (x e : List Char) (acc : List (List Char)) (h : x ∈ acc) :
    x ∈ insertSet e acc := by
  unfold insertSet
  split
  · exact h
  · exact List.mem_append_left _ h

theorem mem_foldl_concatStep (x : List Char) :
    ∀ (ms : List (List Char)) (acc : List (List Char)),
      x ∈ acc → x ∈ ms.foldl concatStep acc := by
  intro ms
  induction ms with
  | nil => intro acc h; exact h
  | cons m t ih =>
    intro acc h
    simp only [List.foldl_cons]
    apply ih
    unfold concatStep
    simp only
    split
    · exact mem_insertSet_of_mem _ _ _ h
    · exact h

theorem mem_unionSet_left (x : List Char) :
    ∀ (b a : List (List Char)), x ∈ a → x ∈ unionSet a b := by
  intro b
  induction b with
  | nil => intro a h; exact h
  | cons e t ih =>
    intro a h
    simp only [unionSet, List.foldl_cons]
    exact ih (insertSet e a) (mem_insertSet_of_mem x e a h)

/-- C6 amended: for any script text of the form `pre ++ P ++ suf`, where `P`
is any quote/whitespace variant of `"jane" + "@" + "acme.org"` and no quote
character occurs in `pre`, the extractor returns `jane@acme.org`.  (The
restriction on `pre` is forced by the counterexample: an earlier
non-overlapping match may consume the occurrence's opening quote.) -/
theorem claim6_amended (q1 q2 q3 : Char) (w1 w2 w3 w4 pre suf : List Char)
    (hq1 : isQuoteChar q1 = true) (hq2 : isQuoteChar q2 = true)
    (hq3 : isQuoteChar q3 = true)
    (hw1 : ∀ c ∈ w1, isPySpace c = true) (hw2 : ∀ c ∈ w2, isPySpace c = true)
    (hw3 : ∀ c ∈ w3, isPySpace c = true) (hw4 : ∀ c ∈ w4, isPySpace c = true)
    (hpre : ∀ c ∈ pre, isQuoteChar c = false) :
    "jane@acme.org".toList ∈
      extract_obfuscated_emails (pre ++ concatVariant q1 q2 q3 w1 w2 w3 w4 ++ suf) := by
  rw [List.append_assoc]
  unfold extract_obfuscated_emails
  apply mem_unionSet_left
  set cv : List Char := concatVariant q1 q2 q3 w1 w2 w3 w4 with hcv
  have hlen : (pre ++ (cv ++ suf)).length = pre.length + (cv ++ suf).length := by
    simp
  have hscan : findConcatMatchesF (pre ++ (cv ++ suf)).length (pre ++ (cv ++ suf)) =
      findConcatMatchesF ((pre ++ (cv ++ suf)).length - pre.length) (cv ++ suf) :=
    findConcatMatchesF_pre (cv ++ suf) pre (pre ++ (cv ++ suf)).length hpre (by omega)
  rw [hscan]
  have hmatch : matchConcatAt (cv ++ suf) = some cv.length := by
    rw [hcv]
    exact matchConcatAt_variant q1 q2 q3 w1 w2 w3 w4 suf hq1 hq2 hq3 hw1 hw2 hw3 hw4
  have hcvlen : 1 ≤ (cv ++ suf).length := by
    rw [hcv, concatVariant_append]
    simp
  rw [findConcatMatchesF_step (cv ++ suf) cv.length _ hmatch (by omega)]
  rw [List.take_left cv suf]
  simp only [List.foldl_cons]
  apply mem_foldl_concatStep
  rw [hcv, concatStep_variant q1 q2 q3 w1 w2 w3 w4 [] hq1 hq2 hq3 hw1 hw2 hw3 hw4]
  exact mem_insertSet_self _ _

/-- C6 witness: the amended statement at the concrete double-quoted,
whitespace-free variant with empty context. -/
theorem claim6_witness :
    "jane@acme.org".toList ∈
      extract_obfuscated_emails
        ([] ++ concatVariant dqChar dqChar dqChar [] [] [] [] ++ []) :=
  claim6_amended dqChar dqChar dqChar [] [] [] [] [] [] (by decide) (by decide)
    (by decide) (by simp) (by simp) (by simp) (by simp) (by simp)
